import Mathlib

/-!
Verification of the WCP (Waveform Control Protocol) parser and VCD exporter
(`backend/src/wcp.rs`): a shallow embedding of `parse_wcp` and `wcp_to_vcd`
together with theorems about the claims of the specification.

Modelling conventions:
* The input byte stream is modelled as the list of its lines (Rust's
  `BufReader::lines` splits on newlines before any parsing happens), so
  `parse_wcp : List String → Except WcpParseError WcpWaveform`.
  I/O faults (`IoError`) have no counterpart in the pure model.
* Rust slice indexing `v[i]`, which panics when out of range, is modelled
  by `List.get?`, with the panic surfacing as `none`; consequently
  `wcp_to_vcd` returns `Option String` (`none` = panic).
* Rust's `HashMap` has unspecified iteration order.  Where the source sorts
  the keys afterwards (`time_groups`) the model is exact; for the `scopes`
  map the model fixes first-insertion order of keys (the claims below do
  not depend on that order).  Values pushed under one key keep insertion
  order, as Rust's `Vec` does.
* `str::trim` / `char::is_whitespace` (Unicode) are modelled with Lean's
  `Char.isWhitespace` (ASCII subset), which agrees on all ASCII input.
-/

namespace Wcp

/-- Rust `str::trim`: drop whitespace from both ends. -/
def trimStr (s : String) : String :=
  ⟨((s.data.dropWhile Char.isWhitespace).reverse.dropWhile Char.isWhitespace).reverse⟩

/-- Rust `str::split_once(c)` on the underlying character list. -/
def splitOnceList (c : Char) : List Char → Option (List Char × List Char)
  | [] => none
  | x :: xs =>
    if x = c then some ([], xs)
    else (splitOnceList c xs).map (fun p => (x :: p.1, p.2))

/-- Rust `str::split_once(c)`: split at the first occurrence of `c`. -/
def splitOnce (s : String) (c : Char) : Option (String × String) :=
  (splitOnceList c s.data).map (fun p => (⟨p.1⟩, ⟨p.2⟩))

/-- Rust `str::split(c)` (keeps empty segments, `"".split(c) = [""]`). -/
def splitCharAux (c : Char) : List Char → List Char → List String
  | [], acc => [⟨acc.reverse⟩]
  | x :: xs, acc =>
    if x = c then ⟨acc.reverse⟩ :: splitCharAux c xs []
    else splitCharAux c xs (x :: acc)

/-- Rust `str::split(c)` on a string. -/
def splitChar (c : Char) (s : String) : List String :=
  splitCharAux c s.data []

/-- Rust `str::split_whitespace`: split on whitespace runs, no empty tokens. -/
def splitWhitespaceAux : List Char → List Char → List String
  | [], [] => []
  | [], acc => [⟨acc.reverse⟩]
  | x :: xs, acc =>
    if x.isWhitespace then
      match acc with
      | [] => splitWhitespaceAux xs []
      | _ :: _ => ⟨acc.reverse⟩ :: splitWhitespaceAux xs []
    else splitWhitespaceAux xs (x :: acc)

/-- Rust `str::split_whitespace` on a string. -/
def splitWhitespace (s : String) : List String :=
  splitWhitespaceAux s.data []

/-- Decimal value accumulator for `parseU64`; `none` on a non-digit. -/
def parseDigits : List Char → Nat → Option Nat
  | [], acc => some acc
  | c :: cs, acc =>
    if c.isDigit then parseDigits cs (acc * 10 + (c.toNat - 48)) else none

/-- Rust `u64::from_str` (`str::parse::<u64>()`): optional leading `+`,
one or more ASCII digits, value below `2 ^ 64`. -/
def parseU64 (s : String) : Option Nat :=
  let cs := match s.data with
    | '+' :: rest => rest
    | cs => cs
  match cs with
  | [] => none
  | _ :: _ =>
    match parseDigits cs 0 with
    | some n => if n < 2 ^ 64 then some n else none
    | none => none

/-- Option-valued `mapM` specialised to lists, written out for easy
induction; models a loop of fallible steps. -/
def mapMO (f : α → Option β) : List α → Option (List β)
  | [] => some []
  | a :: l =>
    match f a, mapMO f l with
    | some b, some bs => some (b :: bs)
    | _, _ => none

/-- Join a list of strings (Rust's repeated `push_str`). -/
def joinAll : List String → String
  | [] => ""
  | s :: ss => s ++ joinAll ss

/-- Join with a separator, Rust `[&str]::join(sep)`. -/
def joinSep (sep : String) : List String → String
  | [] => ""
  | [s] => s
  | s :: ss => s ++ sep ++ joinSep sep ss

/-- `WcpHeader` of `wcp.rs`. -/
structure WcpHeader where
  version : String
  timescale : String
  date : String
deriving Repr, DecidableEq

/-- `WcpSignal` of `wcp.rs` (`usize` width is a `Nat`). -/
structure WcpSignal where
  name : String
  path : String
  width : Nat
  signal_type : String
deriving Repr, DecidableEq

/-- `WcpChange` of `wcp.rs` (`u64` time as `Nat`, `usize` id as `Nat`). -/
structure WcpChange where
  time : Nat
  signal_id : Nat
  value : String
deriving Repr, DecidableEq

/-- `WcpWaveform` of `wcp.rs`. -/
structure WcpWaveform where
  header : WcpHeader
  signals : List WcpSignal
  changes : List WcpChange
deriving Repr, DecidableEq

/-- `WcpParseError` of `wcp.rs`; `ioError` never arises in the pure model. -/
inductive WcpParseError where
  | invalidFormat (msg : String)
  | ioError (msg : String)
  | missingSection (msg : String)
deriving Repr, DecidableEq

/-- The active section of the parser state machine (`section` variable of
`parse_wcp`; `none` = outside any section). -/
inductive Sect where
  | header
  | signals
  | waveform
deriving Repr, DecidableEq

/-- Mutable state of the `parse_wcp` loop. -/
structure ParseState where
  header : Option WcpHeader
  signals : List WcpSignal
  changes : List WcpChange
  sect : Option Sect
deriving Repr, DecidableEq

/-- Initial state of the `parse_wcp` loop. -/
def initState : ParseState :=
  { header := none, signals := [], changes := [], sect := none }

/-- Is the (trimmed) line skipped by the scanner: blank, or a `#` comment? -/
def isSkipped (line : String) : Bool :=
  line = "" || line.data.head? = some '#'

/-- Is the (trimmed) line one of the six section markers? -/
def isMarker (line : String) : Bool :=
  line = "HEADER" || line = "END_HEADER" || line = "SIGNALS" ||
  line = "END_SIGNALS" || line = "WAVEFORM" || line = "END_WAVEFORM"

/-- Header-line handling of `parse_wcp` (the `Some("HEADER")` arm):
split at the first colon, trim key and value, overwrite recognised fields. -/
def updateHeader (h : WcpHeader) (line : String) : WcpHeader :=
  match splitOnce line ':' with
  | some kv =>
    let key := trimStr kv.1
    let value := trimStr kv.2
    if key = "version" then { h with version := value }
    else if key = "timescale" then { h with timescale := value }
    else if key = "date" then { h with date := value }
    else h
  | none => h

/-- Option-token handling of a signal line: a `width:` token overwrites the
width with its parsed value (or 1 when unparsable), a `type:` token
overwrites the type, anything else is ignored. -/
def sigOptStep (acc : Nat × String) (part : String) : Nat × String :=
  match splitOnce part ':' with
  | some kv =>
    if kv.1 = "width" then ((parseU64 kv.2).getD 1, acc.2)
    else if kv.1 = "type" then (acc.1, kv.2)
    else acc
  | none => acc

/-- Signal-line handling of `parse_wcp` (the `Some("SIGNALS")` arm): the
produced signals (`[]` when the line is ignored, one signal otherwise). -/
def parseSignalLine (line : String) : List WcpSignal :=
  match splitOnce line ':' with
  | some idRest =>
    let sig_id := trimStr idRest.1
    match splitWhitespace idRest.2 with
    | [] => []
    | path :: opts =>
      let ws := opts.foldl sigOptStep (1, "wire")
      [{ name := sig_id, path := path, width := ws.1, signal_type := ws.2 }]
  | none => []

/-- One `id=value` segment of a WAVEFORM line: resolve the name against the
current signal table (`iter().position`), dropping unresolved names. -/
def parseChangeSeg (signals : List WcpSignal) (time : Nat) (seg : String) :
    List WcpChange :=
  let seg := trimStr seg
  match splitOnce seg '=' with
  | some nv =>
    let sig_name := trimStr nv.1
    let value := trimStr nv.2
    match signals.findIdx? (fun s => s.name = sig_name) with
    | some sig_idx => [{ time := time, signal_id := sig_idx, value := value }]
    | none => []
  | none => []

/-- All changes produced by one WAVEFORM line's value list (split on `,`). -/
def parseChanges (signals : List WcpSignal) (time : Nat) (values_str : String) :
    List WcpChange :=
  (splitChar ',' values_str).foldr (fun seg acc => parseChangeSeg signals time seg ++ acc) []

/-- The body of the `for line_result in lines` loop of `parse_wcp`:
trim, skip blanks and comments, handle section markers, then dispatch the
content line on the active section. -/
def processLine (st : ParseState) (rawLine : String) :
    Except WcpParseError ParseState :=
  let line := trimStr rawLine
  if isSkipped line then .ok st
  else if line = "HEADER" then .ok { st with sect := some .header }
  else if line = "END_HEADER" then .ok { st with sect := none }
  else if line = "SIGNALS" then .ok { st with sect := some .signals }
  else if line = "END_SIGNALS" then .ok { st with sect := none }
  else if line = "WAVEFORM" then .ok { st with sect := some .waveform }
  else if line = "END_WAVEFORM" then .ok { st with sect := none }
  else
    match st.sect with
    | some .header =>
      .ok { st with header := some (updateHeader (st.header.getD ⟨"", "", ""⟩) line) }
    | some .signals =>
      .ok { st with signals := st.signals ++ parseSignalLine line }
    | some .waveform =>
      match splitOnce line ':' with
      | some tv =>
        match parseU64 (trimStr tv.1) with
        | some time =>
          .ok { st with changes := st.changes ++ parseChanges st.signals time tv.2 }
        | none => .error (.invalidFormat ("Invalid time: " ++ tv.1))
      | none => .ok st
    | none => .ok st

/-- The whole line loop of `parse_wcp`, threading the state. -/
def processLines (st : ParseState) : List String → Except WcpParseError ParseState
  | [] => .ok st
  | l :: ls =>
    match processLine st l with
    | .ok st' => processLines st' ls
    | .error e => .error e

/-- `parse_wcp` of `wcp.rs`: run the line loop, then the end-of-input
checks (missing HEADER first, then empty signal table). -/
def parse_wcp (lines : List String) : Except WcpParseError WcpWaveform :=
  match processLines initState lines with
  | .error e => .error e
  | .ok st =>
    match st.header with
    | none => .error (.missingSection "HEADER")
    | some header =>
      if st.signals.isEmpty then .error (.missingSection "SIGNALS")
      else .ok { header := header, signals := st.signals, changes := st.changes }

/-- Section tracking in isolation: the active section after reading one raw
line (markers flip it, every other line leaves it unchanged). -/
def sectionStep (sect : Option Sect) (rawLine : String) : Option Sect :=
  let line := trimStr rawLine
  if isSkipped line then sect
  else if line = "HEADER" then some .header
  else if line = "END_HEADER" then none
  else if line = "SIGNALS" then some .signals
  else if line = "END_SIGNALS" then none
  else if line = "WAVEFORM" then some .waveform
  else if line = "END_WAVEFORM" then none
  else sect

/-- Is the raw line a content line: after trimming, neither blank, nor a
comment, nor a section marker? -/
def isContentLine (rawLine : String) : Bool :=
  !(isSkipped (trimStr rawLine)) && !(isMarker (trimStr rawLine))

/-- Does this raw line trigger `InvalidFormat` when read inside the
WAVEFORM section: a content line containing a colon whose text before the
first colon, trimmed, does not parse as an unsigned 64-bit integer? -/
def badTimeLine (rawLine : String) : Bool :=
  let line := trimStr rawLine
  if isSkipped line || isMarker line then false
  else
    match splitOnce line ':' with
    | some tv => (parseU64 (trimStr tv.1)).isNone
    | none => false

/-- Starting from section state `sect`, some line of the list is a content
line read inside an open WAVEFORM section whose time field fails to parse. -/
def hasBadTimeLine : Option Sect → List String → Bool
  | _, [] => false
  | sect, l :: ls =>
    (decide (sect = some Sect.waveform) && badTimeLine l) ||
      hasBadTimeLine (sectionStep sect l) ls

/-- Starting from section state `sect`, some line of the list is a content
line read inside an open HEADER section (such a line, even a malformed one,
allocates the header record). -/
def headerSeen : Option Sect → List String → Bool
  | _, [] => false
  | sect, l :: ls =>
    (decide (sect = some Sect.header) && isContentLine l) ||
      headerSeen (sectionStep sect l) ls

/-- Starting from section state `sect`, some line of the list is a content
line read inside an open SIGNALS section that declares a signal. -/
def signalSeen : Option Sect → List String → Bool
  | _, [] => false
  | sect, l :: ls =>
    (decide (sect = some Sect.signals) && isContentLine l &&
        !(parseSignalLine (trimStr l)).isEmpty) ||
      signalSeen (sectionStep sect l) ls

/-- Modelled from the spec: the width contributed by one option token — a
`width:N` token contributes its parsed value, or 1 when unparsable. -/
def widthTok (part : String) : Option Nat :=
  match splitOnce part ':' with
  | some kv => if kv.1 = "width" then some ((parseU64 kv.2).getD 1) else none
  | none => none

/-- Modelled from the spec: `width` parses from an optional `width:N` token
(the last such token wins), each token contributing its parsed value or 1
when unparsable, and defaulting to 1 when no `width:` token is present. -/
def specWidth (opts : List String) : Nat :=
  (opts.filterMap widthTok).getLastD 1

/-- Decimal digits with explicit fuel, so that the kernel can evaluate the
rendering (the fuel `n + 1` always suffices since `n / 10 < n`). -/
def decDigitsAux : Nat → Nat → List Nat
  | 0, _ => []
  | fuel + 1, n =>
    if n < 10 then [n]
    else decDigitsAux fuel (n / 10) ++ [n % 10]

/-- Decimal digits of `n`, most significant first; every entry is `< 10`. -/
def decDigits (n : Nat) : List Nat := decDigitsAux (n + 1) n

/-- Decimal rendering of a natural number (Rust's `format!("{}", n)`). -/
def natToDec (n : Nat) : String :=
  ⟨(decDigits n).map (fun d => Char.ofNat (48 + d))⟩

/-- Identifier allocation of `wcp_to_vcd`: a single printable ASCII
character `chr(33 + i)` for `i < 94`, otherwise `"_"` followed by the
decimal rendering of `i`. -/
def vcdId (i : Nat) : String :=
  if i < 94 then ⟨[Char.ofNat (i + 33)]⟩
  else "_" ++ natToDec i

/-- Append `v` to the entry of key `k` (Rust
`map.entry(k).or_insert_with(Vec::new).push(v)`), tracking keys in
first-insertion order. -/
def insertEntry : List (String × List Nat) → String → Nat → List (String × List Nat)
  | [], k, v => [(k, [v])]
  | e :: rest, k, v =>
    if e.1 = k then (e.1, e.2 ++ [v]) :: rest
    else e :: insertEntry rest k v

/-- The scope key of a signal path: everything before the last `/`-segment,
or `""` when the path has a single segment. -/
def scopeKey (path : String) : String :=
  let parts := splitChar '/' path
  if parts.length > 1 then joinSep "/" (parts.take (parts.length - 1))
  else ""

/-- The `scopes` map of `wcp_to_vcd`: scope key → indices of the signals
declared under it, in declaration order. -/
def buildScopes (signals : List WcpSignal) : List (String × List Nat) :=
  signals.enum.foldl (fun m p => insertEntry m (scopeKey p.2.path) p.1) []

/-- One `$var` declaration line; `none` models the panic of
`wcp.signals[sig_idx]` on an out-of-range index. -/
def varLine (signals : List WcpSignal) (sig_idx : Nat) : Option String :=
  match signals.get? sig_idx with
  | some signal =>
    let sig_name_parts := splitChar '/' signal.path
    let var_name := (sig_name_parts.getLast?).getD signal.name
    some ("$var " ++ signal.signal_type ++ " " ++ natToDec signal.width ++ " " ++
      vcdId sig_idx ++ " " ++ var_name ++ " $end\n")
  | none => none

/-- One scope group of the declaration part: scope-open markers, the group's
`$var` lines, then matching scope-close markers. -/
def scopeBlock (signals : List WcpSignal) (entry : String × List Nat) : Option String :=
  let scope_parts := (splitChar '/' entry.1).filter (fun s => s ≠ "")
  match mapMO (varLine signals) entry.2 with
  | some vars =>
    some (joinAll (scope_parts.map (fun part => "$scope module " ++ part ++ " $end\n"))
      ++ joinAll vars
      ++ joinAll (scope_parts.map (fun _ => "$upscope $end\n")))
  | none => none

/-- One value-change line of `wcp_to_vcd`: compact `<value><id>` when the
referenced signal has width 1, `b<value> <id>` otherwise; `none` models the
panic of `wcp.signals[change.signal_id]` on a dangling reference. -/
def changeLine (signals : List WcpSignal) (change : WcpChange) : Option String :=
  let vcd_id := vcdId change.signal_id
  match signals.get? change.signal_id with
  | some signal =>
    if signal.width = 1 then some (change.value ++ vcd_id ++ "\n")
    else some ("b" ++ change.value ++ " " ++ vcd_id ++ "\n")
  | none => none

/-- The distinct change times in ascending order: the keys of the
`time_groups` map after `times.sort()`. -/
def sortedTimes (changes : List WcpChange) : List Nat :=
  ((changes.map (fun c => c.time)).dedup).insertionSort (· ≤ ·)

/-- The block emitted for one timestamp: the `#<time>` marker followed by
the lines of every change recorded at that time, in encounter order. -/
def timeBlock (signals : List WcpSignal) (changes : List WcpChange) (time : Nat) :
    Option String :=
  match mapMO (changeLine signals) (changes.filter (fun c => c.time = time)) with
  | some ls => some ("#" ++ natToDec time ++ "\n" ++ joinAll ls)
  | none => none

/-- `wcp_to_vcd` of `wcp.rs`: header part, scope/var declarations,
`$enddefinitions`, then the time-grouped value changes.  Returns `none`
exactly when the Rust function panics (dangling `signal_id`). -/
def wcp_to_vcd (wcp : WcpWaveform) : Option String :=
  let headerPart :=
    "$date\n   " ++ wcp.header.date ++ "\n$end\n" ++
    "$version\n   WCP " ++ wcp.header.version ++ "\n$end\n" ++
    "$timescale " ++ wcp.header.timescale ++ " $end\n"
  match mapMO (scopeBlock wcp.signals) (buildScopes wcp.signals) with
  | some scopeBlocks =>
    match mapMO (timeBlock wcp.signals wcp.changes) (sortedTimes wcp.changes) with
    | some timeBlocks =>
      some (headerPart ++ joinAll scopeBlocks ++ "$enddefinitions $end\n"
        ++ joinAll timeBlocks)
    | none => none
  | none => none

/-! Helper lemmas about single parsing steps. -/

/-- A successful parsing step tracks the section exactly like `sectionStep`. -/
theorem processLine_ok_sect {st st' : ParseState} {l : String}
    (h : processLine st l = .ok st') : st'.sect = sectionStep st.sect l := by
  simp only [processLine, sectionStep] at h ⊢
  split_ifs at h ⊢ <;>
    first
      | (simp only [Except.ok.injEq] at h; subst h; rfl)
      | (split at h <;>
          first
            | (simp only [Except.ok.injEq] at h; subst h; rfl)
            | (split at h <;>
                first
                  | (simp only [Except.ok.injEq] at h; subst h; rfl)
                  | (split at h <;>
                      first
                        | (simp only [Except.ok.injEq] at h; subst h; rfl)
                        | exact absurd h (by simp))))

/-- A failing parsing step happens exactly on a bad-time line inside an
open WAVEFORM section, and the error is always `invalidFormat`. -/
theorem processLine_error {st : ParseState} {l : String} {e : WcpParseError}
    (h : processLine st l = .error e) :
    st.sect = some Sect.waveform ∧ badTimeLine l = true ∧
      ∃ msg, e = .invalidFormat msg := by
  simp only [processLine] at h
  split_ifs at h with h1 h2 h3 h4 h5 h6 h7
  split at h
  all_goals try exact absurd h (by simp)
  next hsec =>
    have hcond : (isSkipped (trimStr l) || isMarker (trimStr l)) = false := by
      simp [isMarker, h1, h2, h3, h4, h5, h6, h7]
    split at h
    · next tv htv =>
      split at h
      · exact absurd h (by simp)
      · next htime =>
        simp only [Except.error.injEq] at h
        refine ⟨hsec, ?_, ⟨_, h.symm⟩⟩
        simp only [badTimeLine, hcond]
        rw [htv]
        simp [htime]
    · exact absurd h (by simp)

/-- A bad-time line read inside an open WAVEFORM section makes the parsing
step fail with `invalidFormat`. -/
theorem processLine_bad_err {st : ParseState} {l : String}
    (hsec : st.sect = some Sect.waveform) (hbad : badTimeLine l = true) :
    ∃ msg, processLine st l = .error (.invalidFormat msg) := by
  simp only [badTimeLine] at hbad
  by_cases hsm : (isSkipped (trimStr l) || isMarker (trimStr l)) = true
  · rw [if_pos hsm] at hbad; exact absurd hbad (by simp)
  · rw [if_neg hsm] at hbad
    simp only [Bool.or_eq_true, not_or] at hsm
    obtain ⟨hskip, hmark⟩ := hsm
    have m1 : ¬ trimStr l = "HEADER" := fun hh => hmark (by simp [isMarker, hh])
    have m2 : ¬ trimStr l = "END_HEADER" := fun hh => hmark (by simp [isMarker, hh])
    have m3 : ¬ trimStr l = "SIGNALS" := fun hh => hmark (by simp [isMarker, hh])
    have m4 : ¬ trimStr l = "END_SIGNALS" := fun hh => hmark (by simp [isMarker, hh])
    have m5 : ¬ trimStr l = "WAVEFORM" := fun hh => hmark (by simp [isMarker, hh])
    have m6 : ¬ trimStr l = "END_WAVEFORM" := fun hh => hmark (by simp [isMarker, hh])
    simp only [processLine, hsec]
    rw [if_neg hskip, if_neg m1, if_neg m2, if_neg m3, if_neg m4, if_neg m5, if_neg m6]
    rcases htv : splitOnce (trimStr l) ':' with _ | tv
    · rw [htv] at hbad; simp at hbad
    · rw [htv] at hbad
      simp only [Option.isNone_iff_eq_none] at hbad
      refine ⟨"Invalid time: " ++ tv.1, ?_⟩
      simp [hbad]

/-- `List.findIdx?` with start index `i` returns an index below `i`
plus the list length. -/
theorem findIdx?_lt_add {p : α → Bool} :
    ∀ {l : List α} {i j : Nat}, l.findIdx? p i = some j → j < i + l.length
  | [], _, _, h => by simp at h
  | x :: xs, i, j, h => by
    rw [List.findIdx?_cons] at h
    split at h
    · simp only [Option.some.injEq] at h
      simp only [List.length_cons]
      omega
    · have := findIdx?_lt_add (l := xs) (i := i + 1) (j := j) h
      simp only [List.length_cons]
      omega

/-- Changes produced from one `id=value` segment reference an index into
the current signal table. -/
theorem parseChangeSeg_id_lt {signals : List WcpSignal} {time : Nat} {seg : String}
    {c : WcpChange} (h : c ∈ parseChangeSeg signals time seg) :
    c.signal_id < signals.length := by
  simp only [parseChangeSeg] at h
  split at h
  · split at h
    · next sig_idx hidx =>
      simp only [List.mem_singleton] at h
      subst h
      simpa using findIdx?_lt_add hidx
    · simp at h
  · simp at h

/-- Auxiliary recursion for `parseChanges_id_lt`. -/
theorem parseChanges_id_lt_aux {signals : List WcpSignal} {time : Nat} :
    ∀ (segs : List String) {c : WcpChange},
      c ∈ segs.foldr (fun seg acc => parseChangeSeg signals time seg ++ acc) [] →
      c.signal_id < signals.length
  | [], _, h => by simp at h
  | seg :: segs, c, h => by
    simp only [List.foldr_cons, List.mem_append] at h
    rcases h with h | h
    · exact parseChangeSeg_id_lt h
    · exact parseChanges_id_lt_aux segs h

/-- Changes produced from one WAVEFORM line reference an index into the
current signal table. -/
theorem parseChanges_id_lt {signals : List WcpSignal} {time : Nat}
    {values_str : String} {c : WcpChange}
    (h : c ∈ parseChanges signals time values_str) :
    c.signal_id < signals.length := by
  simp only [parseChanges] at h
  exact parseChanges_id_lt_aux _ h

/-- A successful parsing step preserves validity of all stored change
references (the signal table only ever grows). -/
theorem processLine_ok_inv {st st' : ParseState} {l : String}
    (h : processLine st l = .ok st')
    (hinv : ∀ c ∈ st.changes, c.signal_id < st.signals.length) :
    ∀ c ∈ st'.changes, c.signal_id < st'.signals.length := by
  simp only [processLine] at h
  split_ifs at h
  all_goals first
    | (simp only [Except.ok.injEq] at h; subst h; exact hinv)
    | skip
  split at h
  · simp only [Except.ok.injEq] at h; subst h; exact hinv
  · simp only [Except.ok.injEq] at h; subst h
    intro c hc
    have := hinv c hc
    simp only [List.length_append]
    omega
  · split at h
    · split at h
      · simp only [Except.ok.injEq] at h; subst h
        intro c hc
        simp only [List.mem_append] at hc
        rcases hc with hc | hc
        · exact hinv c hc
        · exact parseChanges_id_lt hc
      · simp at h
    · simp only [Except.ok.injEq] at h; subst h; exact hinv
  · simp only [Except.ok.injEq] at h; subst h; exact hinv

/-- A successful parsing step allocates the header record exactly on a
content line read inside an open HEADER section. -/
theorem processLine_ok_header {st st' : ParseState} {l : String}
    (h : processLine st l = .ok st') :
    st'.header.isSome =
      (st.header.isSome || (decide (st.sect = some Sect.header) && isContentLine l)) := by
  simp only [processLine] at h
  split_ifs at h with h1 h2 h3 h4 h5 h6 h7
  · simp only [Except.ok.injEq] at h; subst h; simp [isContentLine, h1]
  · simp only [Except.ok.injEq] at h; subst h; simp [isContentLine, isMarker, h2]
  · simp only [Except.ok.injEq] at h; subst h; simp [isContentLine, isMarker, h3]
  · simp only [Except.ok.injEq] at h; subst h; simp [isContentLine, isMarker, h4]
  · simp only [Except.ok.injEq] at h; subst h; simp [isContentLine, isMarker, h5]
  · simp only [Except.ok.injEq] at h; subst h; simp [isContentLine, isMarker, h6]
  · simp only [Except.ok.injEq] at h; subst h; simp [isContentLine, isMarker, h7]
  · have hcontent : isContentLine l = true := by
      simp [isContentLine, isMarker, h1, h2, h3, h4, h5, h6, h7]
    split at h
    · next heq =>
      simp only [Except.ok.injEq] at h; subst h
      simp [heq, hcontent]
    · next heq =>
      simp only [Except.ok.injEq] at h; subst h
      simp [heq]
    · next heq =>
      split at h
      · split at h
        · simp only [Except.ok.injEq] at h; subst h; simp [heq]
        · simp at h
      · simp only [Except.ok.injEq] at h; subst h; simp [heq]
    · next heq =>
      simp only [Except.ok.injEq] at h; subst h
      simp [heq]

/-- A concatenation is empty exactly when both parts are. -/
theorem isEmpty_append (a b : List α) : (a ++ b).isEmpty = (a.isEmpty && b.isEmpty) := by
  cases a <;> cases b <;> simp

/-- A successful parsing step keeps the signal table empty exactly when it
was empty and the line did not declare a signal inside an open SIGNALS
section. -/
theorem processLine_ok_signalsEmpty {st st' : ParseState} {l : String}
    (h : processLine st l = .ok st') :
    st'.signals.isEmpty =
      (st.signals.isEmpty &&
        !(decide (st.sect = some Sect.signals) && isContentLine l &&
          !(parseSignalLine (trimStr l)).isEmpty)) := by
  simp only [processLine] at h
  split_ifs at h with h1 h2 h3 h4 h5 h6 h7
  · simp only [Except.ok.injEq] at h; subst h; simp [isContentLine, h1]
  · simp only [Except.ok.injEq] at h; subst h; simp [isContentLine, isMarker, h2]
  · simp only [Except.ok.injEq] at h; subst h; simp [isContentLine, isMarker, h3]
  · simp only [Except.ok.injEq] at h; subst h; simp [isContentLine, isMarker, h4]
  · simp only [Except.ok.injEq] at h; subst h; simp [isContentLine, isMarker, h5]
  · simp only [Except.ok.injEq] at h; subst h; simp [isContentLine, isMarker, h6]
  · simp only [Except.ok.injEq] at h; subst h; simp [isContentLine, isMarker, h7]
  · have hcontent : isContentLine l = true := by
      simp [isContentLine, isMarker, h1, h2, h3, h4, h5, h6, h7]
    split at h
    · next heq =>
      simp only [Except.ok.injEq] at h; subst h
      simp [heq]
    · next heq =>
      simp only [Except.ok.injEq] at h; subst h
      simp [heq, hcontent, isEmpty_append]
    · next heq =>
      split at h
      · split at h
        · simp only [Except.ok.injEq] at h; subst h; simp [heq]
        · simp at h
      · simp only [Except.ok.injEq] at h; subst h; simp [heq]
    · next heq =>
      simp only [Except.ok.injEq] at h; subst h
      simp [heq]

/-! Fold-level lemmas over the whole line loop. -/

/-- Every error of the line loop is an `invalidFormat`. -/
theorem processLines_error_inv :
    ∀ {ls : List String} {st : ParseState} {e : WcpParseError},
      processLines st ls = .error e → ∃ msg, e = .invalidFormat msg
  | [], _, _, h => by simp [processLines] at h
  | l :: ls, st, e, h => by
    simp only [processLines] at h
    split at h
    · exact processLines_error_inv h
    · next e' herr =>
      simp only [Except.error.injEq] at h
      obtain ⟨_, _, msg, hmsg⟩ := processLine_error herr
      exact ⟨msg, h ▸ hmsg⟩

/-- The line loop fails exactly when some content line is read inside an
open WAVEFORM section with an unparsable time field. -/
theorem processLines_error_iff :
    ∀ {ls : List String} {st : ParseState},
      (∃ e, processLines st ls = .error e) ↔ hasBadTimeLine st.sect ls = true
  | [], st => by simp [processLines, hasBadTimeLine]
  | l :: ls, st => by
    simp only [processLines, hasBadTimeLine]
    cases hstep : processLine st l with
    | error e' =>
      obtain ⟨hsec, hbad, _⟩ := processLine_error hstep
      simp [hsec, hbad]
    | ok st' =>
      have hsect := processLine_ok_sect hstep
      have hnotbad : ¬(st.sect = some Sect.waveform ∧ badTimeLine l = true) := by
        rintro ⟨hsec, hbad⟩
        obtain ⟨msg, hmsg⟩ := processLine_bad_err hsec hbad
        rw [hstep] at hmsg
        exact absurd hmsg (by simp)
      have h1 : (decide (st.sect = some Sect.waveform) && badTimeLine l) = false := by
        rcases hw : decide (st.sect = some Sect.waveform) with _ | _
        · simp
        · simp only [decide_eq_true_eq] at hw
          rcases hb : badTimeLine l with _ | _
          · simp
          · exact absurd ⟨hw, hb⟩ hnotbad
      rw [h1, ← hsect]
      simpa using @processLines_error_iff ls st'

/-- Through the line loop, the header record ends allocated exactly when it
started allocated or some content line was read inside a HEADER section. -/
theorem processLines_ok_header :
    ∀ {ls : List String} {st st' : ParseState},
      processLines st ls = .ok st' →
      st'.header.isSome = (st.header.isSome || headerSeen st.sect ls)
  | [], st, st', h => by
    simp only [processLines, Except.ok.injEq] at h
    subst h
    simp [headerSeen]
  | l :: ls, st, st', h => by
    simp only [processLines] at h
    split at h
    · next st₁ hstep =>
      have ih := processLines_ok_header h
      have hsect := processLine_ok_sect hstep
      have hstepH := processLine_ok_header hstep
      simp only [headerSeen, ← hsect, ih, hstepH, Bool.or_assoc]
    · simp at h

/-- Through the line loop, the signal table ends empty exactly when it
started empty and no line declared a signal inside a SIGNALS section. -/
theorem processLines_ok_signalsEmpty :
    ∀ {ls : List String} {st st' : ParseState},
      processLines st ls = .ok st' →
      st'.signals.isEmpty = (st.signals.isEmpty && !signalSeen st.sect ls)
  | [], st, st', h => by
    simp only [processLines, Except.ok.injEq] at h
    subst h
    simp [signalSeen]
  | l :: ls, st, st', h => by
    simp only [processLines] at h
    split at h
    · next st₁ hstep =>
      have ih := processLines_ok_signalsEmpty h
      have hsect := processLine_ok_sect hstep
      have hstepS := processLine_ok_signalsEmpty hstep
      simp only [signalSeen, ← hsect, ih, hstepS, Bool.not_or, Bool.and_assoc]
    · simp at h

/-- The line loop preserves validity of all stored change references. -/
theorem processLines_ok_inv :
    ∀ {ls : List String} {st st' : ParseState},
      processLines st ls = .ok st' →
      (∀ c ∈ st.changes, c.signal_id < st.signals.length) →
      ∀ c ∈ st'.changes, c.signal_id < st'.signals.length
  | [], st, st', h => by
    simp only [processLines, Except.ok.injEq] at h
    subst h
    exact fun hinv => hinv
  | l :: ls, st, st', h => by
    simp only [processLines] at h
    split at h
    · next st₁ hstep =>
      intro hinv
      exact processLines_ok_inv h (processLine_ok_inv hstep hinv)
    · simp at h

/-- With no recognizable section marker in the input, the line loop leaves
the state untouched. -/
theorem processLines_no_marker :
    ∀ {ls : List String}, (∀ l ∈ ls, isMarker (trimStr l) = false) →
      processLines initState ls = .ok initState
  | [], _ => rfl
  | l :: ls, hm => by
    have hml := hm l (List.mem_cons_self l ls)
    have hstep : processLine initState l = .ok initState := by
      simp only [processLine]
      split_ifs with h1 h2 h3 h4 h5 h6 h7
      · rfl
      · simp [isMarker, h2] at hml
      · simp [isMarker, h3] at hml
      · simp [isMarker, h4] at hml
      · simp [isMarker, h5] at hml
      · simp [isMarker, h6] at hml
      · simp [isMarker, h7] at hml
      · rfl
    simp only [processLines, hstep]
    exact processLines_no_marker (fun l' hl' => hm l' (List.mem_cons_of_mem _ hl'))

/-! Theorems for the claims about `parse_wcp`. -/

/-- C1: whenever `parse_wcp` succeeds, every stored change references a
valid index into the final signal table — assignments whose id matches no
declared signal were dropped during parse, never stored dangling. -/
theorem parse_wcp_changes_valid (lines : List String) (w : WcpWaveform)
    (h : parse_wcp lines = .ok w) :
    ∀ c ∈ w.changes, c.signal_id < w.signals.length := by
  simp only [parse_wcp] at h
  split at h
  · simp at h
  · next st hst =>
    split at h
    · simp at h
    · split_ifs at h
      simp only [Except.ok.injEq] at h
      subst h
      exact processLines_ok_inv hst (fun c hc => by simp [initState] at hc)

/-- C3: `parse_wcp` fails with `InvalidFormat` exactly when some content
line read inside an open WAVEFORM section contains a colon whose text
before the first colon, trimmed, does not parse as an unsigned 64-bit
integer (the pure model has no I/O faults). -/
theorem parse_wcp_invalidFormat_iff (lines : List String) :
    (∃ msg, parse_wcp lines = .error (.invalidFormat msg)) ↔
      hasBadTimeLine none lines = true := by
  constructor
  · rintro ⟨msg, h⟩
    simp only [parse_wcp] at h
    split at h
    · next e hst =>
      simp only [Except.error.injEq] at h
      subst h
      exact processLines_error_iff.mp ⟨_, hst⟩
    · next st hst =>
      split at h
      · simp at h
      · split_ifs at h <;> simp at h
  · intro hbad
    obtain ⟨e, he⟩ := (@processLines_error_iff lines initState).mpr hbad
    obtain ⟨msg, rfl⟩ := processLines_error_inv he
    exact ⟨msg, by simp [parse_wcp, he]⟩

/-- C4: assuming no `InvalidFormat` failure, `parse_wcp` fails with
`MissingSection "HEADER"` exactly when no content line was ever read inside
a HEADER section; otherwise it fails with `MissingSection "SIGNALS"`
exactly when no line ever declared a signal inside a SIGNALS section (even
if a SIGNALS/END_SIGNALS pair was present); otherwise it succeeds. -/
theorem parse_wcp_missing_sections (lines : List String)
    (hnf : ∀ msg, parse_wcp lines ≠ .error (.invalidFormat msg)) :
    (parse_wcp lines = .error (.missingSection "HEADER") ↔
      headerSeen none lines = false) ∧
    (parse_wcp lines = .error (.missingSection "SIGNALS") ↔
      (headerSeen none lines = true ∧ signalSeen none lines = false)) ∧
    ((∃ w, parse_wcp lines = .ok w) ↔
      (headerSeen none lines = true ∧ signalSeen none lines = true)) := by
  cases hres : processLines initState lines with
  | error e =>
    obtain ⟨msg, rfl⟩ := processLines_error_inv hres
    exact absurd (by simp [parse_wcp, hres]) (hnf msg)
  | ok st =>
    have hH : st.header.isSome = headerSeen none lines := by
      simpa [initState] using processLines_ok_header hres
    have hS : st.signals.isEmpty = !signalSeen none lines := by
      simpa [initState] using processLines_ok_signalsEmpty hres
    have hp : parse_wcp lines =
        (match st.header with
         | none => .error (.missingSection "HEADER")
         | some header =>
           if st.signals.isEmpty then .error (.missingSection "SIGNALS")
           else .ok { header := header, signals := st.signals, changes := st.changes }) := by
      simp [parse_wcp, hres]
    cases hh : st.header with
    | none =>
      rw [hh] at hp hH
      simp only [Option.isSome_none] at hH
      refine ⟨?_, ?_, ?_⟩ <;> simp [hp, ← hH]
    | some hd =>
      rw [hh] at hp hH
      simp only [Option.isSome_some] at hH
      cases hempty : st.signals.isEmpty with
      | true =>
        rw [hempty] at hS
        have hsig : signalSeen none lines = false := by
          cases hsig : signalSeen none lines
          · rfl
          · rw [hsig] at hS; simp at hS
        simp only [hempty, if_true] at hp
        refine ⟨?_, ?_, ?_⟩ <;> simp [hp, ← hH, hsig]
      | false =>
        rw [hempty] at hS
        have hsig : signalSeen none lines = true := by
          cases hsig : signalSeen none lines
          · rw [hsig] at hS; simp at hS
          · rfl
        simp only [hempty, if_false] at hp
        refine ⟨?_, ?_, ?_⟩ <;> simp [hp, ← hH, hsig]

/-- C10: `parse_wcp` is a total function that returns `Ok` or `Err` on
every input, and on arbitrary text with no recognizable section marker it
returns `MissingSection "HEADER"` rather than crashing. -/
theorem parse_wcp_total_and_unmatched (lines : List String) :
    ((∃ w, parse_wcp lines = .ok w) ∨ (∃ e, parse_wcp lines = .error e)) ∧
    ((∀ l ∈ lines, isMarker (trimStr l) = false) →
      parse_wcp lines = .error (.missingSection "HEADER")) := by
  constructor
  · cases h : parse_wcp lines with
    | ok w => exact Or.inl ⟨w, rfl⟩
    | error e => exact Or.inr ⟨e, rfl⟩
  · intro hm
    have hInit := processLines_no_marker hm
    simp only [parse_wcp, hInit]
    rfl

/-! Lemmas about the exporter. -/

/-- If every element maps to `some`, the whole `mapMO` is `some`. -/
theorem mapMO_isSome {f : α → Option β} :
    ∀ {l : List α}, (∀ a ∈ l, ∃ b, f a = some b) → ∃ bs, mapMO f l = some bs
  | [], _ => ⟨[], rfl⟩
  | a :: l, h => by
    obtain ⟨b, hb⟩ := h a (List.mem_cons_self a l)
    obtain ⟨bs, hbs⟩ := mapMO_isSome (fun x hx => h x (List.mem_cons_of_mem _ hx))
    exact ⟨b :: bs, by simp [mapMO, hb, hbs]⟩

/-- Indices stored by `insertEntry` come from the old map or are the
inserted one. -/
theorem insertEntry_mem :
    ∀ {m : List (String × List Nat)} {k : String} {v idx : Nat}
      {e : String × List Nat},
      e ∈ insertEntry m k v → idx ∈ e.2 →
      (∃ e' ∈ m, idx ∈ e'.2) ∨ idx = v
  | [], k, v, idx, e, he, hidx => by
    simp only [insertEntry, List.mem_singleton] at he
    subst he
    simpa using hidx
  | e0 :: m, k, v, idx, e, he, hidx => by
    simp only [insertEntry] at he
    split at he
    · rcases List.mem_cons.mp he with rfl | he
      · rcases List.mem_append.mp hidx with hidx | hidx
        · exact Or.inl ⟨e0, List.mem_cons_self e0 m, hidx⟩
        · simpa using Or.inr (List.mem_singleton.mp hidx)
      · exact Or.inl ⟨e, List.mem_cons_of_mem _ he, hidx⟩
    · rcases List.mem_cons.mp he with rfl | he
      · exact Or.inl ⟨e, List.mem_cons_self e m, hidx⟩
      · rcases insertEntry_mem he hidx with ⟨e', he', hidx'⟩ | h
        · exact Or.inl ⟨e', List.mem_cons_of_mem _ he', hidx'⟩
        · exact Or.inr h

/-- Folding signal declarations into the scopes map keeps every stored
index below the bound `n` satisfied by the enumerated pairs. -/
theorem scopesFoldl_mem_lt {n : Nat} :
    ∀ {ps : List (Nat × WcpSignal)} {m0 : List (String × List Nat)},
      (∀ p ∈ ps, p.1 < n) →
      (∀ e ∈ m0, ∀ idx ∈ e.2, idx < n) →
      ∀ e ∈ ps.foldl (fun m p => insertEntry m (scopeKey p.2.path) p.1) m0,
        ∀ idx ∈ e.2, idx < n
  | [], m0, _, hm0 => by simpa using hm0
  | p :: ps, m0, hps, hm0 => by
    simp only [List.foldl_cons]
    refine scopesFoldl_mem_lt (fun q hq => hps q (List.mem_cons_of_mem _ hq)) ?_
    intro e he idx hidx
    rcases insertEntry_mem he hidx with ⟨e', he', hidx'⟩ | rfl
    · exact hm0 e' he' idx hidx'
    · exact hps p (List.mem_cons_self p ps)

/-- Enumerated pairs carry an index below the list length. -/
theorem enum_fst_lt {l : List α} {p : Nat × α} (h : p ∈ l.enum) :
    p.1 < l.length := by
  rw [List.mem_enum_iff_get?] at h
  obtain ⟨hlt, _⟩ := List.get?_eq_some.mp h
  exact hlt

/-- Every index stored in the scopes map is a valid index into the signal
table it was built from. -/
theorem buildScopes_mem_lt {signals : List WcpSignal} {e : String × List Nat}
    {idx : Nat} (he : e ∈ buildScopes signals) (hidx : idx ∈ e.2) :
    idx < signals.length := by
  exact scopesFoldl_mem_lt (fun p hp => enum_fst_lt hp)
    (fun e' he' => by simp at he') e he idx hidx

/-- C2 (amended): on every waveform whose changes all reference valid
signal indices (the invariant `parse_wcp` guarantees), `wcp_to_vcd`
returns a string; a dangling `signal_id` instead panics (`none`). -/
theorem wcp_to_vcd_total (w : WcpWaveform)
    (hvalid : ∀ c ∈ w.changes, c.signal_id < w.signals.length) :
    ∃ s, wcp_to_vcd w = some s := by
  obtain ⟨sb, hsb⟩ : ∃ bs, mapMO (scopeBlock w.signals) (buildScopes w.signals) = some bs := by
    apply mapMO_isSome
    intro entry hentry
    obtain ⟨vars, hvars⟩ : ∃ vs, mapMO (varLine w.signals) entry.2 = some vs := by
      apply mapMO_isSome
      intro idx hidx
      have hlt := buildScopes_mem_lt hentry hidx
      rcases hget : w.signals[idx]? with _ | signal
      · have := List.getElem?_eq_getElem hlt
        rw [hget] at this
        simp at this
      · exact Option.isSome_iff_exists.mp (by simp [varLine, hget])
    exact Option.isSome_iff_exists.mp (by simp [scopeBlock, hvars])
  obtain ⟨tb, htb⟩ : ∃ bs,
      mapMO (timeBlock w.signals w.changes) (sortedTimes w.changes) = some bs := by
    apply mapMO_isSome
    intro t ht
    obtain ⟨ls, hls⟩ : ∃ ls,
        mapMO (changeLine w.signals) (w.changes.filter (fun c => c.time = t)) = some ls := by
      apply mapMO_isSome
      intro c hc
      have hlt := hvalid c (List.mem_of_mem_filter hc)
      rcases hget : w.signals[c.signal_id]? with _ | signal
      · have := List.getElem?_eq_getElem hlt
        rw [hget] at this
        simp at this
      · by_cases hwid : signal.width = 1
        · exact Option.isSome_iff_exists.mp (by simp [changeLine, hget, hwid])
        · exact Option.isSome_iff_exists.mp (by simp [changeLine, hget, hwid])
    exact Option.isSome_iff_exists.mp (by simp [timeBlock, hls])
  exact Option.isSome_iff_exists.mp (by simp [wcp_to_vcd, hsb, htb])

/-! Lemmas about identifier allocation. -/

/-- The digit rendering does not depend on the fuel, as long as it exceeds
the number. -/
theorem decDigitsAux_fuel {n : Nat} : ∀ {a b : Nat}, n < a → n < b →
    decDigitsAux a n = decDigitsAux b n := by
  induction n using Nat.strong_induction_on with
  | _ n ih =>
    intro a b h1 h2
    cases a with
    | zero => omega
    | succ a =>
      cases b with
      | zero => omega
      | succ b =>
        simp only [decDigitsAux]
        split_ifs with h
        · rfl
        · have hlt : n / 10 < n := Nat.div_lt_self (by omega) (by omega)
          rw [ih (n / 10) hlt (a := a) (b := b) (by omega) (by omega)]

/-- Unfolding equation of `decDigits`. -/
theorem decDigits_eq (n : Nat) :
    decDigits n = if n < 10 then [n] else decDigits (n / 10) ++ [n % 10] := by
  by_cases h : n < 10
  · simp only [decDigits, decDigitsAux, if_pos h]
  · have h1 : decDigits n = decDigitsAux n (n / 10) ++ [n % 10] := by
      simp only [decDigits, decDigitsAux, if_neg h]
    rw [h1, if_neg h,
      decDigitsAux_fuel (n := n / 10) (a := n) (b := n / 10 + 1)
        (by omega) (by omega)]
    rfl

/-- Decimal digits are below 10. -/
theorem decDigits_lt_ten (n : Nat) : ∀ d ∈ decDigits n, d < 10 := by
  induction n using Nat.strong_induction_on with
  | _ n ih =>
    rw [decDigits_eq]
    split_ifs with h
    · intro d hd
      simp only [List.mem_singleton] at hd
      omega
    · intro d hd
      simp only [List.mem_append, List.mem_singleton] at hd
      rcases hd with hd | hd
      · exact ih (n / 10) (Nat.div_lt_self (by omega) (by omega)) d hd
      · subst hd
        exact Nat.mod_lt _ (by omega)

/-- The digit list of a number is never empty. -/
theorem decDigits_ne_nil (n : Nat) : decDigits n ≠ [] := by
  rw [decDigits_eq]
  split_ifs <;> simp

/-- Reading the digit list back as a decimal value recovers the number. -/
theorem decValN_decDigits (n : Nat) :
    (decDigits n).foldl (fun a d => a * 10 + d) 0 = n := by
  induction n using Nat.strong_induction_on with
  | _ n ih =>
    rw [decDigits_eq]
    split_ifs with h
    · simp
    · have hdiv := ih (n / 10) (Nat.div_lt_self (by omega) (by omega))
      rw [List.foldl_append, hdiv]
      simp only [List.foldl_cons, List.foldl_nil]
      omega

/-- Digit lists determine their numbers. -/
theorem decDigits_inj {m n : Nat} (h : decDigits m = decDigits n) : m = n := by
  have hm := decValN_decDigits m
  rw [h, decValN_decDigits] at hm
  exact hm.symm

/-- The ten digit characters are pairwise distinct. -/
theorem digitCharInj : ∀ d : Nat, d < 10 → ∀ e : Nat, e < 10 →
    Char.ofNat (48 + d) = Char.ofNat (48 + e) → d = e := by decide

/-- Mapping digits to characters is injective on digit lists. -/
theorem mapDigitChar_inj :
    ∀ {ds es : List Nat}, (∀ d ∈ ds, d < 10) → (∀ e ∈ es, e < 10) →
      ds.map (fun d => Char.ofNat (48 + d)) = es.map (fun d => Char.ofNat (48 + d)) →
      ds = es
  | [], [], _, _, _ => rfl
  | [], _ :: _, _, _, h => by simp at h
  | _ :: _, [], _, _, h => by simp at h
  | d :: ds, e :: es, hd, he, h => by
    simp only [List.map_cons, List.cons.injEq] at h
    have h1 := digitCharInj d (hd d (by simp)) e (he e (by simp)) h.1
    have h2 := mapDigitChar_inj (fun x hx => hd x (by simp [hx]))
      (fun x hx => he x (by simp [hx])) h.2
    rw [h1, h2]

/-- Decimal rendering is injective. -/
theorem natToDec_inj {m n : Nat} (h : natToDec m = natToDec n) : m = n := by
  simp only [natToDec, String.ext_iff] at h
  exact decDigits_inj (mapDigitChar_inj (decDigits_lt_ten m) (decDigits_lt_ten n) h)

set_option maxHeartbeats 1000000 in
set_option maxRecDepth 10000 in
/-- The 94 printable identifier characters are pairwise distinct. -/
theorem printableCharInj : ∀ i : Nat, i < 94 → ∀ j : Nat, j < 94 → i ≠ j →
    Char.ofNat (i + 33) ≠ Char.ofNat (j + 33) := by decide

/-- Band-one tokens are single characters. -/
theorem vcdId_small_length {i : Nat} (h : i < 94) : (vcdId i).data.length = 1 := by
  simp [vcdId, h]

/-- Band-two tokens have at least two characters. -/
theorem vcdId_big_length {j : Nat} (h : 94 ≤ j) : 2 ≤ (vcdId j).data.length := by
  simp only [vcdId, if_neg (by omega : ¬ j < 94)]
  show 2 ≤ ('_' :: (natToDec j).data).length
  simp only [List.length_cons]
  have hne : (natToDec j).data.length ≠ 0 := by
    simp only [natToDec, List.length_map, ne_eq, List.length_eq_zero]
    exact decDigits_ne_nil j
  omega

/-- The identifier allocation is injective: the two bands cannot collide
because their lengths differ, and each band is injective. -/
theorem vcdId_inj_core {i j : Nat} (hne : i ≠ j) : vcdId i ≠ vcdId j := by
  intro heq
  by_cases hi : i < 94 <;> by_cases hj : j < 94
  · simp only [vcdId, if_pos hi, if_pos hj, String.ext_iff, List.cons.injEq,
      and_true] at heq
    exact printableCharInj i hi j hj hne heq
  · have l1 := vcdId_small_length hi
    have l2 := vcdId_big_length (j := j) (by omega)
    rw [heq] at l1
    omega
  · have l1 := vcdId_small_length hj
    have l2 := vcdId_big_length (j := i) (by omega)
    rw [heq] at l2
    omega
  · simp only [vcdId, if_neg hi, if_neg hj] at heq
    apply hne
    apply natToDec_inj
    have hdata : '_' :: (natToDec i).data = '_' :: (natToDec j).data :=
      congrArg String.data heq
    simp only [List.cons.injEq, true_and] at hdata
    exact congrArg String.mk hdata

/-- C5: identifier allocation is injective — distinct signal indices always
receive distinct identifier tokens (in particular pairwise distinct for all
indices in `0..200`). -/
theorem vcdId_injective (i j : Nat) (h : i ≠ j) : vcdId i ≠ vcdId j :=
  vcdId_inj_core h

/-- C6 counterexample: index 62 lies in the first band (`62 < 94`) yet its
token is `"_"`, which begins with the underscore glyph — refuting the claim
that every band-one token begins with a non-underscore glyph. -/
theorem vcdId_62_starts_underscore :
    62 < 94 ∧ vcdId 62 = "_" ∧ (vcdId 62).data.head? = some '_' := by
  refine ⟨by omega, ?_, ?_⟩ <;> decide

/-- C6 (amended): for `i < 94` the token is the single printable character
`chr(33 + i)` (which is the underscore itself at `i = 62`); for `j ≥ 94`
the token begins with an underscore and has at least two characters; the
two bands are disjoint because every band-one token is one character long
and every band-two token is longer. -/
theorem vcdId_bands (i j : Nat) (hi : i < 94) (hj : 94 ≤ j) :
    vcdId i = ⟨[Char.ofNat (i + 33)]⟩ ∧
    (vcdId j).data.head? = some '_' ∧
    vcdId i ≠ vcdId j := by
  refine ⟨by simp [vcdId, hi], ?_, ?_⟩
  · simp only [vcdId, if_neg (by omega : ¬ j < 94)]
    rfl
  · intro heq
    have l1 := vcdId_small_length hi
    have l2 := vcdId_big_length hj
    rw [heq] at l1
    omega

/-- C7: the exporter emits its `#<t>` markers following `sortedTimes`,
which is strictly ascending (numerically) and contains exactly the distinct
times of the recorded changes; each emitted block begins with its marker. -/
theorem sortedTimes_markers (w : WcpWaveform) :
    List.Sorted (· < ·) (sortedTimes w.changes) ∧
    (∀ t : Nat, t ∈ sortedTimes w.changes ↔ ∃ c ∈ w.changes, c.time = t) ∧
    (∀ t b, timeBlock w.signals w.changes t = some b →
      ∃ rest, b = "#" ++ natToDec t ++ "\n" ++ rest) := by
  refine ⟨?_, ?_, ?_⟩
  · have hs : List.Sorted (· ≤ ·) (sortedTimes w.changes) :=
      List.sorted_insertionSort _ _
    have hn : (sortedTimes w.changes).Nodup :=
      (List.perm_insertionSort _ _).nodup_iff.mpr
        (List.nodup_dedup _)
    exact hs.lt_of_le hn
  · intro t
    simp [sortedTimes, List.mem_dedup, List.mem_map]
  · intro t b hb
    simp only [timeBlock] at hb
    split at hb
    · next ls hls =>
      simp only [Option.some.injEq] at hb
      exact ⟨joinAll ls, hb.symm⟩
    · simp at hb

/-- C8: a change whose referenced signal has width 1 is rendered in the
compact scalar form `<value><id>`, any other width in the vector form
`b<value> <id>`, the value string passed through verbatim. -/
theorem changeLine_format (signals : List WcpSignal) (change : WcpChange)
    (signal : WcpSignal) (h : signals.get? change.signal_id = some signal) :
    changeLine signals change = some
      (if signal.width = 1 then change.value ++ vcdId change.signal_id ++ "\n"
       else "b" ++ change.value ++ " " ++ vcdId change.signal_id ++ "\n") := by
  simp only [changeLine, List.get?_eq_getElem?] at h ⊢
  rw [h]
  by_cases hwid : signal.width = 1
  · simp [hwid]
  · simp [hwid]

/-- The width component of the option-token fold equals the value of the
last recognised `width:` token, with the fold's starting width as default. -/
theorem signalFoldWidth :
    ∀ (opts : List String) (a : Nat × String),
      (opts.foldl sigOptStep a).1 = (opts.filterMap widthTok).getLastD a.1
  | [], a => by simp
  | part :: opts, a => by
    simp only [List.foldl_cons, List.filterMap_cons]
    rcases hkv : splitOnce part ':' with _ | kv
    · have hst : sigOptStep a part = a := by simp [sigOptStep, hkv]
      have hwt : widthTok part = none := by simp [widthTok, hkv]
      simp only [hst, hwt]
      exact signalFoldWidth opts a
    · by_cases hw : kv.1 = "width"
      · have hst : sigOptStep a part = ((parseU64 kv.2).getD 1, a.2) := by
          simp [sigOptStep, hkv, hw]
        have hwt : widthTok part = some ((parseU64 kv.2).getD 1) := by
          simp [widthTok, hkv, hw]
        simp only [hst, hwt, List.getLastD_cons]
        exact signalFoldWidth opts ((parseU64 kv.2).getD 1, a.2)
      · by_cases ht : kv.1 = "type"
        · have hst : sigOptStep a part = (a.1, kv.2) := by
            simp [sigOptStep, hkv, hw, ht]
          have hwt : widthTok part = none := by simp [widthTok, hkv, hw]
          simp only [hst, hwt]
          exact signalFoldWidth opts (a.1, kv.2)
        · have hst : sigOptStep a part = a := by simp [sigOptStep, hkv, hw, ht]
          have hwt : widthTok part = none := by simp [widthTok, hkv, hw]
          simp only [hst, hwt]
          exact signalFoldWidth opts a

/-- C9 (amended): every stored signal's width equals the spec-side width of
its declaration line's option tokens — the parsed value (or 1 when
unparsable) of the last `width:N` token, defaulting to 1 when absent.  No
lower bound `width ≥ 1` holds: a `width:0` token stores width 0. -/
theorem parseSignalLine_width (line : String) (sig : WcpSignal)
    (hsig : sig ∈ parseSignalLine line) :
    ∃ idRest path opts, splitOnce line ':' = some idRest ∧
      splitWhitespace idRest.2 = path :: opts ∧
      sig.width = specWidth opts := by
  simp only [parseSignalLine] at hsig
  split at hsig
  · next idRest hsplit =>
    split at hsig
    · simp at hsig
    · next path opts hsw =>
      simp only [List.mem_singleton] at hsig
      subst hsig
      exact ⟨idRest, path, opts, hsplit, hsw,
        by simpa [specWidth] using signalFoldWidth opts (1, "wire")⟩
  · simp at hsig

/-- Input whose SIGNALS section declares a signal with a `width:0` token. -/
def c9Lines : List String :=
  ["HEADER", "version: 1", "END_HEADER", "SIGNALS", "s: /a width:0",
   "END_SIGNALS"]

/-- C9 counterexample: parsing a declaration with a `width:0` token stores
a signal of width 0, refuting the claimed lower bound `width ≥ 1`. -/
theorem parse_width_zero :
    ∃ w, parse_wcp c9Lines = .ok w ∧ ¬(∀ sig ∈ w.signals, 1 ≤ sig.width) := by
  refine ⟨⟨⟨"1", "", ""⟩, [⟨"s", "/a", 0, "wire"⟩], []⟩, rfl, ?_⟩
  intro hall
  exact absurd (hall ⟨"s", "/a", 0, "wire"⟩ (by simp)) (by decide)

/-! Concrete inputs and witnesses. -/

/-- The example document of the source's own test suite, as lines. -/
def demoLines : List String :=
  ["# Test WCP file", "HEADER", "version: 1.0", "timescale: 1ns",
   "date: 2026-02-11", "END_HEADER", "", "SIGNALS",
   "clk: /top/clk width:1 type:wire", "data: /top/data width:8 type:reg",
   "END_SIGNALS", "", "WAVEFORM", "0: clk=0, data=00", "10: clk=1",
   "20: clk=0, data=FF", "30: clk=1", "END_WAVEFORM"]

/-- The waveform `parse_wcp` produces from `demoLines`. -/
def demoWaveform : WcpWaveform :=
  { header := ⟨"1.0", "1ns", "2026-02-11"⟩,
    signals := [⟨"clk", "/top/clk", 1, "wire"⟩, ⟨"data", "/top/data", 8, "reg"⟩],
    changes := [⟨0, 0, "0"⟩, ⟨0, 1, "00"⟩, ⟨10, 0, "1"⟩, ⟨20, 0, "0"⟩,
      ⟨20, 1, "FF"⟩, ⟨30, 0, "1"⟩] }

/-- C1 witness: the invariant holds on the test-suite document. -/
theorem parse_wcp_changes_valid_witness :
    parse_wcp demoLines = .ok demoWaveform ∧
    ∀ c ∈ demoWaveform.changes, c.signal_id < demoWaveform.signals.length :=
  ⟨rfl, fun c hc => parse_wcp_changes_valid demoLines demoWaveform rfl c hc⟩

/-- A waveform whose single change references signal 0 of an empty table. -/
def badWaveform : WcpWaveform :=
  { header := ⟨"", "", ""⟩, signals := [], changes := [⟨0, 0, "1"⟩] }

/-- C2 counterexample: on a waveform with a dangling `signal_id`,
`wcp_to_vcd` hits the panicking index `wcp.signals[change.signal_id]`
(modelled as `none`) instead of returning a string — refuting "never fails
for every WcpWaveform value". -/
theorem wcp_to_vcd_panics : wcp_to_vcd badWaveform = none := rfl

/-- A wellformed waveform with one signal and one change. -/
def goodWaveform : WcpWaveform :=
  { header := ⟨"1.0", "1ns", "2026-02-11"⟩,
    signals := [⟨"clk", "/top/clk", 1, "wire"⟩],
    changes := [⟨0, 0, "1"⟩] }

/-- C2 witness: the amended totality theorem applied to a waveform whose
references are all valid. -/
theorem wcp_to_vcd_total_witness :
    (∀ c ∈ goodWaveform.changes, c.signal_id < goodWaveform.signals.length) ∧
    ∃ s, wcp_to_vcd goodWaveform = some s :=
  ⟨by decide, wcp_to_vcd_total goodWaveform (by decide)⟩

/-- A document with a HEADER content line but an empty SIGNALS section. -/
def c4Lines : List String :=
  ["HEADER", "junk", "END_HEADER", "SIGNALS", "END_SIGNALS"]

/-- C4 witness: a single malformed HEADER content line averts the HEADER
error, and the empty signal table triggers `MissingSection "SIGNALS"` even
though the SIGNALS/END_SIGNALS pair was present. -/
theorem parse_wcp_missing_sections_witness :
    parse_wcp c4Lines = .error (.missingSection "SIGNALS") :=
  (parse_wcp_missing_sections c4Lines
    (fun _ h => by
      rw [show parse_wcp c4Lines =
        Except.error (WcpParseError.missingSection "SIGNALS") from rfl] at h
      simp at h)).2.1.mpr ⟨by decide, by decide⟩

/-- C5 witness: the injectivity theorem applied across the two bands. -/
theorem vcdId_injective_witness : (5 : Nat) ≠ 100 ∧ vcdId 5 ≠ vcdId 100 :=
  ⟨by decide, vcdId_injective 5 100 (by decide)⟩

/-- C6 witness: the amended band theorem applied at indices 0 and 94. -/
theorem vcdId_bands_witness :
    0 < 94 ∧ 94 ≤ 94 ∧
    (vcdId 0 = ⟨[Char.ofNat (0 + 33)]⟩ ∧ (vcdId 94).data.head? = some '_' ∧
      vcdId 0 ≠ vcdId 94) :=
  ⟨by decide, by decide, vcdId_bands 0 94 (by decide) (by decide)⟩

/-- A waveform with a single change at time 5. -/
def c7Waveform : WcpWaveform :=
  { header := ⟨"", "", ""⟩, signals := [⟨"s", "p", 1, "w"⟩],
    changes := [⟨5, 0, "1"⟩] }

/-- C7 witness: the emitted block at time 5 starts with its `#5` marker. -/
theorem sortedTimes_markers_witness :
    timeBlock c7Waveform.signals c7Waveform.changes 5 = some "#5\n1!\n" ∧
    ∃ rest, "#5\n1!\n" = "#" ++ natToDec 5 ++ "\n" ++ rest :=
  ⟨rfl, (sortedTimes_markers c7Waveform).2.2 5 "#5\n1!\n" rfl⟩

/-- A one-signal table for the C8 witness. -/
def c8Signals : List WcpSignal := [⟨"clk", "/top/clk", 1, "wire"⟩]

/-- A change referencing the only signal of `c8Signals`. -/
def c8Change : WcpChange := ⟨0, 0, "1"⟩

/-- C8 witness: the format theorem applied to a width-1 signal. -/
theorem changeLine_format_witness :
    c8Signals.get? c8Change.signal_id = some ⟨"clk", "/top/clk", 1, "wire"⟩ ∧
    changeLine c8Signals c8Change = some
      (if (⟨"clk", "/top/clk", 1, "wire"⟩ : WcpSignal).width = 1
       then c8Change.value ++ vcdId c8Change.signal_id ++ "\n"
       else "b" ++ c8Change.value ++ " " ++ vcdId c8Change.signal_id ++ "\n") :=
  ⟨rfl, changeLine_format c8Signals c8Change ⟨"clk", "/top/clk", 1, "wire"⟩ rfl⟩

/-- C9 witness: the amended width theorem applied to a `width:0` line. -/
theorem parseSignalLine_width_witness :
    (⟨"s", "/a", 0, "wire"⟩ : WcpSignal) ∈ parseSignalLine "s: /a width:0" ∧
    ∃ idRest path opts, splitOnce "s: /a width:0" ':' = some idRest ∧
      splitWhitespace idRest.2 = path :: opts ∧
      (⟨"s", "/a", 0, "wire"⟩ : WcpSignal).width = specWidth opts :=
  ⟨by decide,
    parseSignalLine_width "s: /a width:0" ⟨"s", "/a", 0, "wire"⟩ (by decide)⟩

/-- Arbitrary text with no recognizable section markers. -/
def c10Lines : List String := ["hello world", "1: a=b", "# comment"]

/-- C10 witness: such text parses to `MissingSection "HEADER"`. -/
theorem parse_wcp_total_witness :
    (∀ l ∈ c10Lines, isMarker (trimStr l) = false) ∧
    parse_wcp c10Lines = .error (.missingSection "HEADER") :=
  ⟨by decide, (parse_wcp_total_and_unmatched c10Lines).2 (by decide)⟩

end Wcp
